import Mathlib

/-!
Verification of the dict-dictpress-conversions entry extractors.

The Python sources are shallowly embedded over `List Char`:
strings become character lists, `str.strip()` becomes `pyStrip`,
the regular expressions of the three dialect parsers become explicit
left-to-right scanners with the same leftmost / greedy semantics on the
character classes the source uses (the classes involved are pairwise
disjoint, which makes greedy matching deterministic).  Python's notion
of whitespace and of cased characters is modelled over the character
repertoire the repository actually processes (ASCII plus Malayalam
U+0D00-U+0D7F plus Latin diacritics); Malayalam characters are uncased
and non-space in Python exactly as in this model.
-/

namespace DictConv

/-- Python `str` whitespace as used by `strip` / `\s` (ASCII repertoire). -/
def pyIsSpace (c : Char) : Bool :=
  c == ' ' || c == '\t' || c == '\n' || c == '\r' ||
    c == Char.ofNat 11 || c == Char.ofNat 12

/-- Python `str.lstrip()`. -/
def lstrip (cs : List Char) : List Char := cs.dropWhile pyIsSpace

/-- Python `str.rstrip()`. -/
def rstrip (cs : List Char) : List Char := (cs.reverse.dropWhile pyIsSpace).reverse

/-- Python `str.strip()`. -/
def pyStrip (cs : List Char) : List Char := rstrip (lstrip cs)

/-- The character class `[ഀ-ൿ]` of bailey_to_dictpress.py line 122. -/
def isMalayalamWide (c : Char) : Bool :=
  decide (0x0D00 ≤ c.toNat) && decide (c.toNat ≤ 0x0D7F)

/-- The character class `[അ-ൿ]` (U+0D05..U+0D7F) used by the gundert parser. -/
def isMlLetter (c : Char) : Bool :=
  decide (0x0D05 ≤ c.toNat) && decide (c.toNat ≤ 0x0D7F)

def isLatinLower (c : Char) : Bool := decide ('a' ≤ c) && decide (c ≤ 'z')

def isLatinUpper (c : Char) : Bool := decide ('A' ≤ c) && decide (c ≤ 'Z')

/-- Cased characters (model restricted to the Latin letters of the corpus). -/
def isCasedChar (c : Char) : Bool := isLatinLower c || isLatinUpper c

/-- Python `str.isupper()`: at least one cased character and no lowercase one. -/
def pyIsUpperStr (cs : List Char) : Bool :=
  cs.any isCasedChar && !(cs.any isLatinLower)

/-! ## Bailey (1849) plain-text dialect, bailey_to_dictpress.py -/

/-- `POS_MAPPING` of bailey_to_dictpress.py lines 18-46. -/
def POS_MAPPING : List (List Char × List Char) :=
  [ ("a".toList, "adjective".toList)
  , ("ad".toList, "adverb".toList)
  , ("adv".toList, "adverb".toList)
  , ("art".toList, "article".toList)
  , ("conj".toList, "conjunction".toList)
  , ("s".toList, "noun".toList)
  , ("v. a".toList, "verb-transitive".toList)
  , ("v. n".toList, "verb-intransitive".toList)
  , ("v. a. & n".toList, "verb".toList)
  , ("v. n. & a".toList, "verb".toList)
  , ("prep".toList, "preposition".toList)
  , ("pron".toList, "pronoun".toList)
  , ("pron. poss".toList, "pronoun-possessive".toList)
  , ("recip. pron".toList, "pronoun-reciprocal".toList)
  , ("interj".toList, "interjection".toList)
  , ("part".toList, "participle".toList)
  , ("part. a".toList, "participle".toList)
  , ("part. pass".toList, "participle-passive".toList)
  , ("part. pass. & a".toList, "participle-passive".toList)
  , ("pret".toList, "past-tense".toList)
  , ("pret. & part".toList, "past-participle".toList)
  , ("pret. & part. pass".toList, "past-participle-passive".toList)
  , ("v. defect".toList, "verb-defective".toList)
  , ("verb imper".toList, "verb-imperfect".toList)
  , ("pl".toList, "plural".toList)
  , ("plu".toList, "plural".toList)
  , ("fem".toList, "feminine".toList) ]

structure BaileyEntry where
  headword : List Char
  pos : List Char
  definitions : List Char
  line_number : Nat
  pos_normalized : List Char
deriving DecidableEq, Repr

/-- `BaileyEntry.__init__` (lines 52-57): strips the three text fields and
normalises the POS through `POS_MAPPING`, falling back to the raw value. -/
def BaileyEntry.make (headword pos definitions : List Char) (ln : Nat) : BaileyEntry :=
  let h := pyStrip headword
  let p := pyStrip pos
  let d := pyStrip definitions
  { headword := h, pos := p, definitions := d, line_number := ln
  , pos_normalized := (List.lookup p POS_MAPPING).getD p }

/-- Does the regex `\.\s+[ഀ-ൿ]` match at the head of `cs`?
A match needs a period, at least one whitespace character, then a character
in U+0D00-U+0D7F; whitespace and that block are disjoint, so the greedy
`\s+` is equivalent to dropping the maximal whitespace run. -/
def mlBoundaryAt (cs : List Char) : Bool :=
  match cs with
  | c :: rest =>
    if c = '.' then
      decide ((rest.dropWhile pyIsSpace).length < rest.length) &&
        (match rest.dropWhile pyIsSpace with
          | m :: _ => isMalayalamWide m
          | [] => false)
    else false
  | [] => false

/-- `re.search(r'\.\s+[ഀ-ൿ]', rest).start()`: index of the leftmost
position where `mlBoundaryAt` holds. -/
def searchMlBoundary : List Char → Option Nat
  | [] => none
  | c :: rest =>
    if mlBoundaryAt (c :: rest) then some 0
    else (searchMlBoundary rest).map (· + 1)

/-- `parse_entry_line` of bailey_to_dictpress.py lines 91-138. -/
def parse_entry_line (line0 : List Char) (line_number : Nat) : Option BaileyEntry :=
  let line := pyStrip line0
  if line.isEmpty || pyIsUpperStr line then none
  else
    match line.findIdx? (fun c => c == ',') with
    | none => none
    | some comma_pos =>
      let headword := pyStrip (line.take comma_pos)
      let rest := pyStrip (line.drop (comma_pos + 1))
      match searchMlBoundary rest with
      | none => none
      | some pos_end =>
        let pos := pyStrip (rest.take pos_end)
        let defs0 := pyStrip (rest.drop (pos_end + 1))
        let defs1 := if defs0.getLast? = some '.' then pyStrip defs0.dropLast else defs0
        some (BaileyEntry.make headword pos defs1 line_number)

/-! ## Gundert (1872) TEI dialect, gundert_to_dictpress.py -/

/-- `self.etymology_map` (lines 32-49). -/
def etymology_map : List (List Char × List Char) :=
  [ ("S.".toList, "sanskrit".toList)
  , ("T.".toList, "tamil".toList)
  , ("M.".toList, "malayalam".toList)
  , ("C.".toList, "canarese".toList)
  , ("Te.".toList, "telugu".toList)
  , ("Tu.".toList, "tulu".toList)
  , ("So.".toList, "southern".toList)
  , ("No.".toList, "northern".toList)
  , ("V1.".toList, "verapoli1".toList)
  , ("V2.".toList, "verapoli2".toList)
  , ("TR.".toList, "tellicherry".toList)
  , ("P.".toList, "persian".toList)
  , ("Ar.".toList, "arabic".toList)
  , ("Port.".toList, "portuguese".toList)
  , ("E.".toList, "english".toList)
  , ("H.".toList, "hindustani".toList) ]

/-- `self.citation_markers` (lines 52-59). -/
def citation_markers : List (List Char) :=
  [ "TR.".toList, "Bhg.".toList, "CG.".toList, "KR.".toList, "TP.".toList
  , "PT.".toList, "AR.".toList, "Nal.".toList, "Bhr.".toList
  , "CC.".toList, "RC.".toList, "VyM.".toList, "KU.".toList, "Mud.".toList
  , "ChVr.".toList, "UR.".toList, "GP.".toList
  , "VCh.".toList, "MC.".toList, "MR.".toList, "Anj.".toList, "RS.".toList
  , "SiPu.".toList, "Bhag.".toList, "Nid.".toList
  , "Arb.".toList, "Matsy.".toList, "VivR.".toList, "Sab.".toList
  , "Tantr.".toList, "VetC.".toList, "Asht.".toList
  , "Gan.".toList, "GnP.".toList, "Rh.".toList, "PR.".toList, "Sk.".toList
  , "Tatw.".toList, "VedD.".toList, "KumK.".toList
  , "Sah.".toList, "Anach.".toList, "Si Pu.".toList ]

/-- Code points of the diacritic letters and combining marks in the
romanization character class of lines 104 and 129 (after `a-zA-Z`). -/
def gundertDiacritics : List Nat :=
  [0x1e6d, 0x1e0d, 0x1e47, 0x1e5f, 0x1e37, 0x1e45, 0x1e41, 0x1e43, 0x1e25,
   0x15b, 0x1e63, 0x101, 0x12b, 0x16b, 0x1e5b, 0x1e5d, 0x1e39, 0x113, 0x14d,
   0xe0, 0xe8, 0xec, 0xf2, 0xf9, 0xe2, 0xea, 0xee, 0xf4, 0xfb, 0xe4, 0xeb,
   0xef, 0xf6, 0xfc, 0xe3, 0xf5, 0xf1, 0x324, 0x325, 0x304, 0x300, 0x303]

/-- The romanization character class `[a-zA-Zṭḍ...]` of lines 104 / 129. -/
def isLatinD (c : Char) : Bool :=
  isLatinLower c || isLatinUpper c || gundertDiacritics.contains c.toNat

/-- Python's `\d` on a `str` pattern: any Unicode decimal digit.  Within
the repertoire this program processes that is the ASCII digits together
with the Malayalam digits ൦-൯ (U+0D66..U+0D6F). -/
def pyIsDigit (c : Char) : Bool :=
  c.isDigit || (decide (0x0D66 ≤ c.toNat) && decide (c.toNat ≤ 0x0D6F))

/-- Decimal value of one Unicode decimal digit, as `int` reads it. -/
def digitVal (c : Char) : Nat :=
  if c.isDigit then c.toNat - 48 else c.toNat - 0x0D66

/-- Python `int` on a captured digit string (`int` accepts any Unicode
decimal digits, including the Malayalam ones). -/
def digitsToNat (ds : List Char) : Nat :=
  ds.foldl (fun n c => n * 10 + digitVal c) 0

theorem length_dropWhile_le (p : Char → Bool) (l : List Char) :
    (List.dropWhile p l).length ≤ l.length :=
  (List.dropWhile_suffix p).length_le

/-- Python `pat in text` (substring containment). -/
def isSubstringOf (pat text : List Char) : Bool := decide (pat <:+: text)

/-- Try the sense-marker pattern `(\d+)\.\s+` at the head of `cs`,
returning the captured digits and the text after the greedy `\s+`. -/
def tryDigitsDot (cs : List Char) : Option (List Char × List Char) :=
  if (cs.takeWhile pyIsDigit).isEmpty then none
  else
    match cs.dropWhile pyIsDigit with
    | '.' :: cs2 =>
      if (cs2.takeWhile pyIsSpace).isEmpty then none
      else some (cs.takeWhile pyIsDigit, cs2.dropWhile pyIsSpace)
    | _ => none

/-- Try the full split pattern `(?:^|\s)(\d+)\.\s+` at the current scan
position; `first` is true only at position 0 (the `^` alternative). -/
def trySenseHere (first : Bool) (cs : List Char) : Option (List Char × List Char) :=
  match (if first then tryDigitsDot cs else none) with
  | some r => some r
  | none =>
    match cs with
    | c :: cs2 => if pyIsSpace c then tryDigitsDot cs2 else none
    | [] => none

theorem tryDigitsDot_length {cs ds rest : List Char}
    (h : tryDigitsDot cs = some (ds, rest)) : rest.length < cs.length := by
  unfold tryDigitsDot at h
  split at h
  · exact absurd h (by simp)
  · split at h
    · rename_i cs2 heq
      split at h
      · exact absurd h (by simp)
      · simp only [Option.some.injEq, Prod.mk.injEq] at h
        have h1 : rest.length ≤ cs2.length := by
          rw [← h.2]; exact length_dropWhile_le _ _
        have h2 : cs2.length < (cs.dropWhile pyIsDigit).length := by
          rw [heq]; simp
        have h3 : (cs.dropWhile pyIsDigit).length ≤ cs.length :=
          length_dropWhile_le _ _
        omega
    · exact absurd h (by simp)

theorem trySenseHere_length {first : Bool} {cs ds rest : List Char}
    (h : trySenseHere first cs = some (ds, rest)) : rest.length < cs.length := by
  unfold trySenseHere at h
  split at h
  · rename_i r heq
    split at heq
    · cases h; exact tryDigitsDot_length heq
    · exact absurd heq (by simp)
  · split at h
    · rename_i c cs2
      split at h
      · have := tryDigitsDot_length h
        simp only [List.length_cons]; omega
      · exact absurd h (by simp)
    · exact absurd h (by simp)

/-- `re.split(r'(?:^|\s)(\d+)\.\s+', text)` (line 161-162), returned as the
piece before the first match together with the list of
(captured digits, following piece) pairs.  Scanning advances at least one
character per step (`trySenseHere_length`), so fuel `cs.length` always
completes the scan; the fuel-exhausted case is only reachable with an
empty remainder. -/
def splitSensesAux (first : Bool) : Nat → List Char →
    List Char × List (List Char × List Char)
  | 0, cs => (cs, [])
  | fuel + 1, cs =>
    match trySenseHere first cs with
    | some (ds, rest) =>
      let pr := splitSensesAux false fuel rest
      ([], (ds, pr.1) :: pr.2)
    | none =>
      match cs with
      | [] => ([], [])
      | c :: cs2 =>
        let pr := splitSensesAux false fuel cs2
        (c :: pr.1, pr.2)

def splitSenses (cs : List Char) : List Char × List (List Char × List Char) :=
  splitSensesAux true cs.length cs

/-- Does the sentence-boundary pattern `[.!?]\s+` (line 204) match at the
head of `cs`?  If so, return the text after the greedy `\s+`. -/
def sentBoundaryAt (cs : List Char) : Option (List Char) :=
  match cs with
  | c :: rest =>
    if c = '.' || c = '!' || c = '?' then
      if (rest.takeWhile pyIsSpace).isEmpty then none
      else some (rest.dropWhile pyIsSpace)
    else none
  | [] => none

theorem sentBoundaryAt_length {cs rest : List Char}
    (h : sentBoundaryAt cs = some rest) : rest.length < cs.length := by
  unfold sentBoundaryAt at h
  split at h
  · rename_i c cs2
    split at h
    · split at h
      · exact absurd h (by simp)
      · simp only [Option.some.injEq] at h
        have h1 : rest.length ≤ cs2.length := by
          rw [← h]; exact length_dropWhile_le _ _
        simp only [List.length_cons]; omega
    · exact absurd h (by simp)
  · exact absurd h (by simp)

/-- `re.split(r'[.!?]\s+', text)` (line 204), with the same fuel scheme
(`sentBoundaryAt_length`). -/
def splitSentencesAux : Nat → List Char → List (List Char)
  | 0, cs => [cs]
  | fuel + 1, cs =>
    match sentBoundaryAt cs with
    | some rest => [] :: splitSentencesAux fuel rest
    | none =>
      match cs with
      | [] => [[]]
      | c :: cs2 =>
        match splitSentencesAux fuel cs2 with
        | p :: ps => (c :: p) :: ps
        | [] => [[c]]

def splitSentences (cs : List Char) : List (List Char) :=
  splitSentencesAux cs.length cs

/-- `separate_languages` (lines 198-214): Malayalam sentences vs
substantial Latin sentences. -/
def separate_languages (text : List Char) : List (List Char) × List (List Char) :=
  (splitSentences text).foldl
    (fun acc sent =>
      if sent.any isMlLetter then (acc.1 ++ [sent], acc.2)
      else if !(pyStrip sent).isEmpty && decide ((pyStrip sent).length > 2) then
        (acc.1, acc.2 ++ [sent])
      else acc)
    ([], [])

/-- Python `' '.join(parts)`. -/
def joinSpace (xs : List (List Char)) : List Char := List.intercalate [' '] xs

/-- Python `marker.replace('.', '')`. -/
def stripDots (cs : List Char) : List Char := cs.filter (fun c => c ≠ '.')

/-- `extract_citations` (lines 216-222): collect the period-stripped form of
every fixed marker occurring as a substring, then `list(set(...))`, which
keeps exactly the distinct values (modelled in first-occurrence order). -/
def extract_citations (text : List Char) : List (List Char) :=
  (((citation_markers.filter (fun m => isSubstringOf m text)).map stripDots)).dedup

/-- Word class `[അ-ൿa-zA-Z]` of the cross-reference patterns. -/
def isXrefWord (c : Char) : Bool := isMlLetter c || isLatinLower c || isLatinUpper c

/-- Try `\(=\s*([അ-ൿa-zA-Z]+)\)` at the head of `cs`. -/
def tryEqualsRef (cs : List Char) : Option (List Char × List Char) :=
  match cs with
  | c1 :: c2 :: rest =>
    if c1 = '(' ∧ c2 = '=' then
      let r := rest.dropWhile pyIsSpace
      let w := r.takeWhile isXrefWord
      if w.isEmpty then none
      else
        match r.dropWhile isXrefWord with
        | ')' :: rest2 => some (w, rest2)
        | _ => none
    else none
  | _ => none

/-- ASCII lowercase fold (for `re.IGNORECASE` over the corpus). -/
def lowerChar (c : Char) : Char :=
  if isLatinUpper c then Char.ofNat (c.toNat + 32) else c

/-- Try `see\s+([അ-ൿa-zA-Z]+)` (case-insensitive) at the head of `cs`. -/
def trySeeRef (cs : List Char) : Option (List Char × List Char) :=
  match cs with
  | c1 :: c2 :: c3 :: rest =>
    if lowerChar c1 = 's' ∧ lowerChar c2 = 'e' ∧ lowerChar c3 = 'e' then
      if (rest.takeWhile pyIsSpace).isEmpty then none
      else
        let r := rest.dropWhile pyIsSpace
        let w := r.takeWhile isXrefWord
        if w.isEmpty then none
        else some (w, r.dropWhile isXrefWord)
    else none
  | _ => none

/-- Try `opp\.\s+([അ-ൿa-zA-Z]+)` at the head of `cs`. -/
def tryOppRef (cs : List Char) : Option (List Char × List Char) :=
  match cs with
  | c1 :: c2 :: c3 :: c4 :: rest =>
    if c1 = 'o' ∧ c2 = 'p' ∧ c3 = 'p' ∧ c4 = '.' then
      if (rest.takeWhile pyIsSpace).isEmpty then none
      else
        let r := rest.dropWhile pyIsSpace
        let w := r.takeWhile isXrefWord
        if w.isEmpty then none
        else some (w, r.dropWhile isXrefWord)
    else none
  | _ => none

/-- `re.findall` scan: leftmost non-overlapping matches, collecting the
captured group.  Every pattern above consumes at least one character per
match, so fuel `cs.length` always suffices for a full scan. -/
def scanFindall (tryf : List Char → Option (List Char × List Char)) :
    Nat → List Char → List (List Char)
  | 0, _ => []
  | fuel + 1, cs =>
    match tryf cs with
    | some (w, rest) => w :: scanFindall tryf fuel rest
    | none =>
      match cs with
      | [] => []
      | _ :: cs2 => scanFindall tryf fuel cs2

structure GCrossRef where
  rtype : List Char
  word : List Char
deriving DecidableEq, Repr

/-- `extract_cross_refs` (lines 224-240). -/
def extract_cross_refs (text : List Char) : List GCrossRef :=
  ((scanFindall tryEqualsRef text.length text).map
      (fun w => GCrossRef.mk "synonym".toList w)) ++
  ((scanFindall trySeeRef text.length text).map
      (fun w => GCrossRef.mk "see_also".toList w)) ++
  ((scanFindall tryOppRef text.length text).map
      (fun w => GCrossRef.mk "antonym".toList w))

structure GundertDefn where
  sense : Nat
  malayalam : List Char
  english : List Char
  citations : List (List Char)
  cross_refs : List GCrossRef
  raw : List Char
deriving DecidableEq, Repr

/-- `parse_single_definition` (lines 178-196). -/
def parse_single_definition (sense_num : Nat) (text : List Char) : GundertDefn :=
  let citations := extract_citations text
  let cross_refs := extract_cross_refs text
  let parts := separate_languages text
  { sense := sense_num
  , malayalam := pyStrip (joinSpace parts.1)
  , english := pyStrip (joinSpace parts.2)
  , citations := citations
  , cross_refs := cross_refs
  , raw := pyStrip text }

/-- `parse_definitions` (lines 156-176): the pre-marker piece becomes an
unnumbered sense when its stripped text is non-empty and does not start
with `(`; every numbered piece becomes a numbered sense. -/
def parse_definitions (text : List Char) : List GundertDefn :=
  let sp := splitSenses text
  let lead :=
    if !(pyStrip sp.1).isEmpty && !((pyStrip sp.1).head? = some '(' : Bool) then
      [parse_single_definition 0 sp.1]
    else []
  lead ++ sp.2.map (fun g => parse_single_definition (digitsToNat g.1) g.2)

/-- Try one literal alternative of the etymology-marker alternation. -/
def tryLit (pat cs : List Char) : Option (List Char × List Char) :=
  if pat.isPrefixOf cs then some (pat, cs.drop pat.length) else none

/-- Try the `V\d\.` alternative (`\d` is any Unicode decimal digit). -/
def tryVDigit (cs : List Char) : Option (List Char × List Char) :=
  match cs with
  | c1 :: c2 :: c3 :: rest =>
    if c1 = 'V' ∧ pyIsDigit c2 = true ∧ c3 = '.' then some ([c1, c2, c3], rest)
    else none
  | _ => none

/-- First alternative of an ordered regex alternation that matches. -/
def firstAlt : List (List Char → Option (List Char × List Char)) → List Char →
    Option (List Char × List Char)
  | [], _ => none
  | f :: fs, cs =>
    match f cs with
    | some r => some r
    | none => firstAlt fs cs

/-- The alternation
`(S\.|T\.|M\.|C\.|Te\.|Tu\.|So\.|No\.|V\d\.|TR\.|P\.|Ar\.|Port\.|E\.|H\.|Tdbh\.)`
of line 129, tried in source order (first alternative that matches wins). -/
def tryEtymMarker (cs : List Char) : Option (List Char × List Char) :=
  firstAlt
    [ tryLit "S.".toList, tryLit "T.".toList, tryLit "M.".toList
    , tryLit "C.".toList, tryLit "Te.".toList, tryLit "Tu.".toList
    , tryLit "So.".toList, tryLit "No.".toList, tryVDigit
    , tryLit "TR.".toList, tryLit "P.".toList, tryLit "Ar.".toList
    , tryLit "Port.".toList, tryLit "E.".toList, tryLit "H.".toList
    , tryLit "Tdbh.".toList ] cs

/-- The optional group `(?:\s+(markers))?` after the romanization run.
`\s+` is greedy and no alternative starts with whitespace, so only the
maximal whitespace run can precede a marker; when the group fails the
enclosing `(.*)` resumes at `cs` itself. -/
def tryOptEtym (cs : List Char) : List Char × List Char :=
  if (cs.takeWhile pyIsSpace).isEmpty then ([], cs)
  else
    match tryEtymMarker (cs.dropWhile pyIsSpace) with
    | some (m, rest) => (m, rest)
    | none => ([], cs)

/-- `looks_like_entry` (lines 101-105): `^[അ-ൿ]+\s+[a-zA-Z...]+`.
The three classes are pairwise disjoint, so the greedy `+` runs are the
maximal runs and the match succeeds iff all three runs are non-empty. -/
def looks_like_entry (text : List Char) : Bool :=
  let r1 := text.dropWhile isMlLetter
  let r2 := r1.dropWhile pyIsSpace
  !(text.takeWhile isMlLetter).isEmpty &&
    !(r1.takeWhile pyIsSpace).isEmpty &&
    !(r2.takeWhile isLatinD).isEmpty

structure GundertEntry where
  malayalam : List Char
  romanization : List Char
  etymology_marker : List Char
  etymology : List Char
  page : List Char
  raw_definition : List Char
  definitions : List GundertDefn
deriving DecidableEq, Repr

/-- `extract_entry` (lines 125-154): anchored match of
`^([അ-ൿ]+)\s+([a-zA-Z...]+)(?:\s+(markers))?(.*)$` with DOTALL, then the
short-remainder filter and the etymology-map lookup with `''` fallback. -/
def extract_entry (text : List Char) (page_num : List Char) : Option GundertEntry :=
  let g1 := text.takeWhile isMlLetter
  let r1 := text.dropWhile isMlLetter
  let ws1 := r1.takeWhile pyIsSpace
  let r2 := r1.dropWhile pyIsSpace
  let g2 := r2.takeWhile isLatinD
  let r3 := r2.dropWhile isLatinD
  if g1.isEmpty || ws1.isEmpty || g2.isEmpty then none
  else
    let me := tryOptEtym r3
    let definition_text := pyStrip me.2
    if definition_text.length < 3 then none
    else
      some
        { malayalam := g1
        , romanization := g2
        , etymology_marker := me.1
        , etymology := (List.lookup me.1 etymology_map).getD []
        , page := page_num
        , raw_definition := definition_text
        , definitions := parse_definitions definition_text }

/-! ## STV (1917) XDXF dialect, stv_to_dictpress.py -/

/-- An `xml.etree.ElementTree.Element`: tag, text, attributes, children,
tail (with `None` texts conflated with `''`, which the parser treats
identically via truthiness). -/
inductive Elem : Type where
  | mk (tag : List Char) (text : List Char) (attrs : List (List Char × List Char))
       (children : List Elem) (tail : List Char)
deriving Repr

def Elem.tag : Elem → List Char
  | .mk t _ _ _ _ => t

def Elem.text : Elem → List Char
  | .mk _ x _ _ _ => x

def Elem.attrs : Elem → List (List Char × List Char)
  | .mk _ _ a _ _ => a

def Elem.children : Elem → List Elem
  | .mk _ _ _ c _ => c

def Elem.tail : Elem → List Char
  | .mk _ _ _ _ t => t

/-- `element.get(key, dflt)`. -/
def Elem.getAttr (e : Elem) (key dflt : List Char) : List Char :=
  (List.lookup key e.attrs).getD dflt

/-- `element.findall(tag)`: direct children with the given tag, in order. -/
def findallTag (t : List Char) (e : Elem) : List Elem :=
  e.children.filter (fun c => c.tag == t)

/-- `element.find(tag)`: first direct child with the given tag. -/
def findTag (t : List Char) (e : Elem) : Option Elem :=
  e.children.find? (fun c => c.tag == t)

mutual

/-- `STVParser.get_text` (lines 197-222): element text, then for each child
its recursive text, a space if the child is a `<br>`, and the child's tail;
the concatenation is stripped.  Empty parts are skipped in the source,
which is the same as appending them. -/
def get_text : Elem → List Char
  | .mk _ text _ children _ => pyStrip (text ++ getTextList children)

def getTextList : List Elem → List Char
  | [] => []
  | c :: cs =>
    get_text c ++ (if c.tag == "br".toList then [' '] else []) ++ c.tail ++
      getTextList cs

end

structure STVDefn where
  dtype : List Char
  dtext : List Char
  language : List Char
  example_type : List Char
deriving DecidableEq, Repr

structure STVCrossRef where
  word : List Char
  rtype : List Char
deriving DecidableEq, Repr

structure STVEntry where
  headword : List Char
  grammar : List Char
  definitions : List STVDefn
  cross_refs : List STVCrossRef
  etymology : List Char
deriving Repr

/-- Non-empty `get_text` of an element, as an optional definition record. -/
def mkDefnOf (dtype : List Char) (e : Elem) : Option STVDefn :=
  let t := get_text e
  if t.isEmpty then none
  else some { dtype := dtype, dtext := t, language := "malayalam".toList, example_type := [] }

/-- An `<ex>` element (lines 132-145 / 158-170): uses its `type` attribute
(default `exm`) and the text of its first `<ex_orig>` child. -/
def mkExampleOf (e : Elem) : Option STVDefn :=
  match findTag "ex_orig".toList e with
  | none => none
  | some orig =>
    let t := get_text orig
    if t.isEmpty then none
    else
      some { dtype := "example".toList, dtext := t, language := "malayalam".toList
           , example_type := e.getAttr "type".toList "exm".toList }

/-- `STVParser.parse_entry` (lines 77-195). -/
def parse_entry (ar : Elem) : Option STVEntry :=
  match findallTag "k".toList ar with
  | [] => none
  | k1 :: _ =>
    let headword := get_text k1
    if headword.isEmpty then none
    else
      match findTag "def".toList ar with
      | none => none
      | some defEl =>
        let grammar := match findTag "gr".toList defEl with
          | some gr => get_text gr
          | none => []
        let direct := (findallTag "deftext".toList defEl).filterMap
          (mkDefnOf "definition".toList)
        let nested := (findallTag "def".toList defEl).flatMap fun subDef =>
          (findallTag "deftext".toList subDef).filterMap (mkDefnOf "definition".toList) ++
          (findallTag "expl".toList subDef).filterMap (mkDefnOf "explanation".toList) ++
          (findallTag "ex".toList subDef).filterMap mkExampleOf
        let topExpl := (findallTag "expl".toList defEl).filterMap
          (mkDefnOf "explanation".toList)
        let topEx := (findallTag "ex".toList defEl).filterMap mkExampleOf
        let cross_refs := match findTag "sr".toList defEl with
          | none => []
          | some sr =>
            (findallTag "kref".toList sr).filterMap fun kref =>
              let t := get_text kref
              if t.isEmpty then none
              else some { word := t, rtype := kref.getAttr "type".toList "rel".toList }
        let etymology := match findTag "etm".toList defEl with
          | some etm => get_text etm
          | none => []
        some { headword := headword, grammar := grammar
             , definitions := direct ++ nested ++ topExpl ++ topEx
             , cross_refs := cross_refs, etymology := etymology }

/-! ## Text normalizer `GundertParser.clean_text` (lines 107-123)

`clean_text` receives an element, serializes it (`str(element)`), deletes
the line-break tags by regex substitution, strips the remaining markup
(`BeautifulSoup(...).get_text()`), collapses whitespace runs and strips.
It is modelled here on the serialized markup string. -/

/-- Match `<lb\s*/?\s*></?\s*lb\s*>` (line 114) at the head of `cs`,
returning the text after the match.  `\s*` is greedy and `/`, `>` and
whitespace are distinct, so the parse is deterministic. -/
def tryLb1 (cs : List Char) : Option (List Char) :=
  match cs with
  | c1 :: c2 :: c3 :: rest =>
    if c1 = '<' ∧ c2 = 'l' ∧ c3 = 'b' then
      let r1 := rest.dropWhile pyIsSpace
      let r2 := match r1 with
        | '/' :: t => t.dropWhile pyIsSpace
        | _ => r1
      match r2 with
      | '>' :: '<' :: r3 =>
        let r4 := match r3 with
          | '/' :: t => t
          | _ => r3
        match r4.dropWhile pyIsSpace with
        | 'l' :: 'b' :: r5 =>
          match r5.dropWhile pyIsSpace with
          | '>' :: r6 => some r6
          | _ => none
        | _ => none
      | _ => none
    else none
  | _ => none

/-- Match `<lb\s*/>` (line 115) at the head of `cs`. -/
def tryLb2 (cs : List Char) : Option (List Char) :=
  match cs with
  | c1 :: c2 :: c3 :: rest =>
    if c1 = '<' ∧ c2 = 'l' ∧ c3 = 'b' then
      match rest.dropWhile pyIsSpace with
      | '/' :: '>' :: r => some r
      | _ => none
    else none
  | _ => none

/-- `re.sub(pattern, '', text)` as a left-to-right scan: at each position
the pattern is tried; a match is deleted and the scan resumes after it,
otherwise one character is kept.  Every `tryLb` match consumes at least
five characters, so fuel `cs.length` always completes the scan (the
fuel-exhausted case can only be reached with an empty remainder). -/
def subScan (tryf : List Char → Option (List Char)) : Nat → List Char → List Char
  | 0, cs => cs
  | fuel + 1, cs =>
    match tryf cs with
    | some rest => subScan tryf fuel rest
    | none =>
      match cs with
      | [] => []
      | c :: cs2 => c :: subScan tryf fuel cs2

/-- One HTML character reference at the head of `cs`, as
`html.parser` decodes them in character data (modelled for the five core
named references with their terminating semicolon; the decoded character
is emitted as data and never reparsed). -/
def tryEntity (cs : List Char) : Option (Char × List Char) :=
  if ("amp;".toList).isPrefixOf cs then some ('&', cs.drop 4)
  else if ("lt;".toList).isPrefixOf cs then some ('<', cs.drop 3)
  else if ("gt;".toList).isPrefixOf cs then some ('>', cs.drop 3)
  else if ("quot;".toList).isPrefixOf cs then some (Char.ofNat 34, cs.drop 5)
  else if ("apos;".toList).isPrefixOf cs then some (Char.ofNat 39, cs.drop 5)
  else none

/-- `BeautifulSoup(text, 'html.parser').get_text()` on markup input:
drop everything from `<` to the matching `>`, keep character data, and
decode character references in character data (a reference split by a
tag is reassembled as plain text, not decoded, exactly as the parser
emits it).  Every step consumes one input character, so fuel
`cs.length` always completes the scan. -/
def bsGetText : Nat → Bool → List Char → List Char
  | 0, _, cs => cs
  | _ + 1, _, [] => []
  | fuel + 1, true, c :: cs =>
    if c = '>' then bsGetText fuel false cs else bsGetText fuel true cs
  | fuel + 1, false, c :: cs =>
    if c = '<' then bsGetText fuel true cs
    else if c = '&' then
      match tryEntity cs with
      | some (d, cs2) => d :: bsGetText fuel false cs2
      | none => '&' :: bsGetText fuel false cs
    else c :: bsGetText fuel false cs

/-- `re.sub(r'\s+', ' ', text)`: replace each maximal whitespace run by a
single space.  Fuel `cs.length` suffices since every step consumes at
least one character. -/
def collapseWsAux : Nat → List Char → List Char
  | 0, cs => cs
  | fuel + 1, cs =>
    match cs with
    | [] => []
    | c :: cs2 =>
      if pyIsSpace c then ' ' :: collapseWsAux fuel (cs2.dropWhile pyIsSpace)
      else c :: collapseWsAux fuel cs2

def collapseWs (cs : List Char) : List Char :=
  collapseWsAux cs.length cs

/-- `clean_text` (lines 107-123) on the serialized element markup:
delete both line-break tag forms, strip remaining tags and decode
character references, collapse whitespace, strip. -/
def clean_text (markup : List Char) : List Char :=
  let t1 := subScan tryLb1 markup.length markup
  let t2 := subScan tryLb2 t1.length t1
  pyStrip (collapseWs (bsGetText t2.length false t2))

/-! ## Basic lemmas about the string primitives -/

theorem ml_not_space {c : Char} (h : isMalayalamWide c = true) : pyIsSpace c = false := by
  unfold isMalayalamWide at h
  simp only [Bool.and_eq_true, decide_eq_true_eq] at h
  apply Bool.eq_false_iff.mpr
  intro hsp
  unfold pyIsSpace at hsp
  simp only [Bool.or_eq_true, beq_iff_eq] at hsp
  rcases hsp with ((((h1 | h2) | h3) | h4) | h5) | h6 <;>
    first
      | (subst h1; exact absurd h (by decide))
      | (subst h2; exact absurd h (by decide))
      | (subst h3; exact absurd h (by decide))
      | (subst h4; exact absurd h (by decide))
      | (subst h5; exact absurd h (by decide))
      | (subst h6; exact absurd h (by decide))

theorem mlLetter_not_space {c : Char} (h : isMlLetter c = true) : pyIsSpace c = false := by
  apply ml_not_space
  unfold isMlLetter at h
  unfold isMalayalamWide
  simp only [Bool.and_eq_true, decide_eq_true_eq] at h ⊢
  omega

theorem dropWhile_append_of_all {p : Char → Bool} {s : List Char}
    (hs : ∀ c ∈ s, p c = true) (t : List Char) :
    List.dropWhile p (s ++ t) = List.dropWhile p t := by
  induction s with
  | nil => rfl
  | cons c s ih =>
    simp only [List.cons_append, List.dropWhile_cons, hs c (by simp)]
    exact ih (fun d hd => hs d (by simp [hd]))

theorem dropWhile_concat_of_neg {p : Char → Bool} {c : Char} (hc : p c = false)
    (xs : List Char) :
    List.dropWhile p (xs ++ [c]) = xs.dropWhile p ++ [c] := by
  induction xs with
  | nil => simp [List.dropWhile_cons, hc]
  | cons x xs ih =>
    simp only [List.cons_append, List.dropWhile_cons]
    by_cases hx : p x = true
    · simp [hx, ih]
    · simp at hx; simp [hx]

theorem lstrip_append_spaces {s : List Char} (hs : ∀ c ∈ s, pyIsSpace c = true)
    (t : List Char) : lstrip (s ++ t) = lstrip t :=
  dropWhile_append_of_all hs t

theorem lstrip_cons_of_neg {c : Char} (hc : pyIsSpace c = false) (t : List Char) :
    lstrip (c :: t) = c :: t := by
  unfold lstrip; simp [List.dropWhile_cons, hc]

theorem rstrip_concat_of_neg {c : Char} (hc : pyIsSpace c = false) (t : List Char) :
    rstrip (t ++ [c]) = t ++ [c] := by
  unfold rstrip
  simp only [List.reverse_append, List.reverse_cons, List.reverse_nil, List.nil_append,
    List.cons_append, List.dropWhile_cons, hc]
  simp

theorem rstrip_cons_of_neg {c : Char} (hc : pyIsSpace c = false) (t : List Char) :
    rstrip (c :: t) = c :: rstrip t := by
  unfold rstrip
  have : (c :: t).reverse = t.reverse ++ [c] := by simp
  rw [this, dropWhile_concat_of_neg hc]
  simp

theorem pyStrip_eq_self {cs : List Char}
    (h1 : ∀ c, cs.head? = some c → pyIsSpace c = false)
    (h2 : ∀ c, cs.getLast? = some c → pyIsSpace c = false) :
    pyStrip cs = cs := by
  unfold pyStrip
  rcases cs with _ | ⟨c, t⟩
  · rfl
  · rw [lstrip_cons_of_neg (h1 c rfl)]
    rcases List.eq_nil_or_concat (c :: t) with h | ⟨l2, b, hcat⟩
    · simp at h
    · rw [List.concat_eq_append] at hcat
      rw [hcat]
      exact rstrip_concat_of_neg (h2 b (by rw [hcat]; exact List.getLast?_concat l2)) l2

theorem lstrip_head_not_space (cs : List Char) :
    ∀ c, (lstrip cs).head? = some c → pyIsSpace c = false := by
  induction cs with
  | nil => intro c h; simp [lstrip, List.dropWhile] at h
  | cons x xs ih =>
    intro c h
    unfold lstrip at h
    rw [List.dropWhile_cons] at h
    by_cases hx : pyIsSpace x = true
    · rw [if_pos hx] at h; exact ih c h
    · rw [if_neg hx] at h
      simp only [List.head?_cons, Option.some.injEq] at h
      subst h; simpa using hx

theorem rstrip_prefix_self (cs : List Char) : rstrip cs <+: cs := by
  unfold rstrip
  have h := List.dropWhile_suffix (l := cs.reverse) pyIsSpace
  rcases h with ⟨pre, hpre⟩
  refine ⟨pre.reverse, ?_⟩
  have := congrArg List.reverse hpre
  simpa using this

theorem rstrip_getLast_not_space {cs : List Char} :
    ∀ c, (rstrip cs).getLast? = some c → pyIsSpace c = false := by
  intro c h
  unfold rstrip at h
  rw [List.getLast?_reverse] at h
  have : ∀ (xs : List Char), (List.dropWhile pyIsSpace xs).head? = some c →
      pyIsSpace c = false := by
    intro xs
    induction xs with
    | nil => intro h2; simp [List.dropWhile] at h2
    | cons y ys ih =>
      intro h2
      rw [List.dropWhile_cons] at h2
      by_cases hy : pyIsSpace y = true
      · rw [if_pos hy] at h2; exact ih h2
      · rw [if_neg hy] at h2
        simp only [List.head?_cons, Option.some.injEq] at h2
        subst h2; simpa using hy
  exact this cs.reverse h

theorem pyStrip_head_not_space {cs : List Char} :
    ∀ c, (pyStrip cs).head? = some c → pyIsSpace c = false := by
  intro c h
  unfold pyStrip at h
  rcases rstrip_prefix_self (lstrip cs) with ⟨post, hpost⟩
  apply lstrip_head_not_space cs c
  rw [← hpost, List.head?_append, h]
  rfl

theorem pyStrip_idem (cs : List Char) : pyStrip (pyStrip cs) = pyStrip cs :=
  pyStrip_eq_self (fun c h => pyStrip_head_not_space c h)
    (fun c h => rstrip_getLast_not_space c h)

theorem pyStrip_append_spaces_left {s : List Char}
    (hs : ∀ c ∈ s, pyIsSpace c = true) (t : List Char) :
    pyStrip (s ++ t) = pyStrip t := by
  unfold pyStrip
  rw [lstrip_append_spaces hs]

theorem pyStrip_infix_self (cs : List Char) : pyStrip cs <:+: cs := by
  unfold pyStrip
  rcases rstrip_prefix_self (lstrip cs) with ⟨post, hpost⟩
  rcases List.dropWhile_suffix (l := cs) pyIsSpace with ⟨pre, hpre⟩
  refine ⟨pre, post, ?_⟩
  rw [List.append_assoc, hpost]
  exact hpre

theorem pyStrip_subset {cs : List Char} {c : Char} (h : c ∈ pyStrip cs) : c ∈ cs :=
  (pyStrip_infix_self cs).subset h

/-! ## Lemmas for the Bailey head parser -/

theorem dropWhile_append_cases (p : Char → Bool) (xs ys : List Char) :
    List.dropWhile p (xs ++ ys) =
      if (xs.dropWhile p).isEmpty then ys.dropWhile p
      else xs.dropWhile p ++ ys := by
  induction xs with
  | nil => simp
  | cons x xs ih =>
    simp only [List.cons_append, List.dropWhile_cons]
    by_cases hx : p x = true
    · simp only [if_pos hx, ih]
    · simp at hx
      simp [hx]

theorem mem_of_mem_dropWhile {p : Char → Bool} {c : Char} {xs : List Char}
    (h : c ∈ xs.dropWhile p) : c ∈ xs :=
  (List.dropWhile_suffix p).subset h

theorem findIdx_comma {head : List Char} (h : ',' ∉ head) (rest : List Char) :
    ∀ i, List.findIdx? (fun c => c == ',') (head ++ ',' :: rest) i =
      some (i + head.length) := by
  induction head with
  | nil => intro i; simp [List.findIdx?_cons]
  | cons c hd ih =>
    intro i
    have hc : c ≠ ',' := fun hc => h (by simp [hc])
    simp only [List.cons_append, List.findIdx?_cons, beq_iff_eq, if_neg hc]
    rw [ih (fun hm => h (by simp [hm])) (i + 1)]
    congr 1
    simp only [List.length_cons]
    omega

theorem mlBoundaryAt_nil : mlBoundaryAt [] = false := rfl

theorem mlBoundaryAt_boundary {s2 rest2 : List Char} {m : Char}
    (hs2 : ∀ c ∈ s2, pyIsSpace c = true) (hs2ne : s2 ≠ [])
    (hm : isMalayalamWide m = true) :
    mlBoundaryAt ('.' :: (s2 ++ m :: rest2)) = true := by
  simp only [mlBoundaryAt, if_true]
  rw [dropWhile_append_of_all hs2, List.dropWhile_cons, if_neg (by simp [ml_not_space hm])]
  have hlen : 0 < s2.length := List.length_pos.mpr hs2ne
  simp [hm, hlen]

theorem mlBoundaryAt_inside_pos {pos : List Char} (rest2 : List Char)
    (hpos : ∀ c ∈ pos, isMalayalamWide c = false) {i : Nat} (hi : i < pos.length) :
    mlBoundaryAt ((pos ++ '.' :: rest2).drop i) = false := by
  rw [List.drop_append_of_le_length (le_of_lt hi), List.drop_eq_getElem_cons hi]
  simp only [List.cons_append, mlBoundaryAt]
  by_cases hc : pos[i] = '.'
  · rw [if_pos hc]
    have hmatch :
        (match List.dropWhile pyIsSpace (pos.drop (i + 1) ++ '.' :: rest2) with
          | m :: _ => isMalayalamWide m
          | [] => false) = false := by
      rw [dropWhile_append_cases]
      by_cases hemp : ((pos.drop (i + 1)).dropWhile pyIsSpace).isEmpty = true
      · rw [if_pos hemp, List.dropWhile_cons, if_neg (by decide)]
        rfl
      · rw [if_neg hemp]
        rcases hw : (pos.drop (i + 1)).dropWhile pyIsSpace with _ | ⟨d, w⟩
        · rw [hw] at hemp; simp at hemp
        · simp only [List.cons_append]
          apply hpos
          have hd : d ∈ (pos.drop (i + 1)).dropWhile pyIsSpace := by rw [hw]; simp
          exact (List.drop_suffix (i + 1) pos).subset (mem_of_mem_dropWhile hd)
    rw [hmatch, Bool.and_false]
  · rw [if_neg hc]

theorem searchMlBoundary_append {xs ys : List Char} (hys : mlBoundaryAt ys = true)
    (hxs : ∀ i, i < xs.length → mlBoundaryAt (xs.drop i ++ ys) = false) :
    searchMlBoundary (xs ++ ys) = some xs.length := by
  induction xs with
  | nil =>
    rcases ys with _ | ⟨y, ys'⟩
    · exact absurd hys (by simp [mlBoundaryAt_nil])
    · simp only [List.nil_append, searchMlBoundary, if_pos hys, List.length_nil]
  | cons x xs ih =>
    have h0 := hxs 0 (by simp)
    simp only [List.drop_zero] at h0
    simp only [List.cons_append, searchMlBoundary]
    rw [if_neg (by simp [List.cons_append] at h0 ⊢; exact h0)]
    simp only [List.append_eq]
    rw [ih (fun i hi => by
      have := hxs (i + 1) (by simp only [List.length_cons]; omega)
      simpa using this)]
    simp

theorem strip_self_head {xs : List Char} (h : pyStrip xs = xs) :
    ∀ c, xs.head? = some c → pyIsSpace c = false :=
  fun c hc => pyStrip_head_not_space c (by rw [h]; exact hc)

/-- Claim C1: for every well-formed separator-delimited line
`Head ++ "," ++ spaces ++ pos ++ "." ++ spaces ++ target ++ "."`
(no comma in the head, head and marker free of surrounding whitespace,
marker free of Malayalam characters, at least one space after the marker's
period, target starting with a Malayalam character, and at least one
lowercase letter so the line is not an all-caps section header),
`parse_entry_line` returns an entry whose headword is `Head`, whose POS
is the marker, and whose definitions text is the text strictly between
the marker's period and the trailing period with surrounding whitespace
stripped. -/
theorem c1_parse_entry_line_wellformed
    (head s1 pos s2 tgt : List Char) (n : Nat)
    (h_head_comma : ',' ∉ head)
    (h_head_strip : pyStrip head = head)
    (h_pos_strip : pyStrip pos = pos)
    (h_pos_noml : ∀ c ∈ pos, isMalayalamWide c = false)
    (h_s1 : ∀ c ∈ s1, pyIsSpace c = true)
    (h_s2 : ∀ c ∈ s2, pyIsSpace c = true)
    (h_s2ne : s2 ≠ [])
    (h_tgt : ∃ m tgt0, tgt = m :: tgt0 ∧ isMalayalamWide m = true)
    (h_lower : (head ++ ',' :: (s1 ++ pos ++ '.' :: (s2 ++ tgt ++ ['.']))).any
        isLatinLower = true) :
    ∃ e, parse_entry_line
        (head ++ ',' :: (s1 ++ pos ++ '.' :: (s2 ++ tgt ++ ['.']))) n = some e ∧
      e.headword = head ∧ e.pos = pos ∧ e.definitions = pyStrip (s2 ++ tgt) := by
  obtain ⟨m, tgt0, htgteq, hm⟩ := h_tgt
  subst htgteq
  have hX2 : s2 ++ (m :: tgt0) ++ ['.'] = s2 ++ m :: (tgt0 ++ ['.']) := by simp
  rw [hX2] at h_lower ⊢
  have hmns : pyIsSpace m = false := ml_not_space hm
  have hL1 : pyStrip (head ++ ',' :: (s1 ++ pos ++ '.' :: (s2 ++ m :: (tgt0 ++ ['.'])))) =
      head ++ ',' :: (s1 ++ pos ++ '.' :: (s2 ++ m :: (tgt0 ++ ['.']))) := by
    apply pyStrip_eq_self
    · intro c hc
      rcases head with _ | ⟨h0, head'⟩
      · simp only [List.nil_append, List.head?_cons, Option.some.injEq] at hc
        subst hc; decide
      · simp only [List.cons_append, List.head?_cons, Option.some.injEq] at hc
        subst hc
        exact strip_self_head h_head_strip h0 rfl
    · intro c hc
      have hform : head ++ ',' :: (s1 ++ pos ++ '.' :: (s2 ++ m :: (tgt0 ++ ['.']))) =
          (head ++ ',' :: (s1 ++ pos ++ '.' :: (s2 ++ m :: tgt0))) ++ ['.'] := by
        simp
      rw [hform, List.getLast?_concat] at hc
      simp only [Option.some.injEq] at hc
      subst hc; decide
  have hL2 : ((head ++ ',' :: (s1 ++ pos ++ '.' :: (s2 ++ m :: (tgt0 ++ ['.'])))).isEmpty ||
      pyIsUpperStr (head ++ ',' :: (s1 ++ pos ++ '.' :: (s2 ++ m :: (tgt0 ++ ['.']))))) =
      false := by
    have hmt : (head ++ ',' :: (s1 ++ pos ++ '.' :: (s2 ++ m :: (tgt0 ++ ['.'])))).isEmpty =
        false := by
      rcases head with _ | ⟨h0, head'⟩ <;> rfl
    have hup : pyIsUpperStr (head ++ ',' :: (s1 ++ pos ++ '.' :: (s2 ++ m :: (tgt0 ++ ['.'])))) =
        false := by
      unfold pyIsUpperStr
      rw [h_lower]
      simp
    rw [hmt, hup]
    rfl
  have hL3 : (head ++ ',' :: (s1 ++ pos ++ '.' :: (s2 ++ m :: (tgt0 ++ ['.'])))).findIdx?
      (fun c => c == ',') = some head.length := by
    have h := findIdx_comma h_head_comma (s1 ++ pos ++ '.' :: (s2 ++ m :: (tgt0 ++ ['.']))) 0
    simpa using h
  have hL4 : (head ++ ',' :: (s1 ++ pos ++ '.' :: (s2 ++ m :: (tgt0 ++ ['.'])))).take
      head.length = head := List.take_left head _
  have hL5 : (head ++ ',' :: (s1 ++ pos ++ '.' :: (s2 ++ m :: (tgt0 ++ ['.'])))).drop
      (head.length + 1) = s1 ++ pos ++ '.' :: (s2 ++ m :: (tgt0 ++ ['.'])) := by
    rw [← List.drop_drop, List.drop_left]
    rfl
  have hL6 : pyStrip (s1 ++ pos ++ '.' :: (s2 ++ m :: (tgt0 ++ ['.']))) =
      pos ++ '.' :: (s2 ++ m :: (tgt0 ++ ['.'])) := by
    rw [List.append_assoc, pyStrip_append_spaces_left h_s1]
    apply pyStrip_eq_self
    · intro c hc
      rcases pos with _ | ⟨p0, pos'⟩
      · simp only [List.nil_append, List.head?_cons, Option.some.injEq] at hc
        subst hc; decide
      · simp only [List.cons_append, List.head?_cons, Option.some.injEq] at hc
        subst hc
        exact strip_self_head h_pos_strip p0 rfl
    · intro c hc
      have hform : pos ++ '.' :: (s2 ++ m :: (tgt0 ++ ['.'])) =
          (pos ++ '.' :: (s2 ++ m :: tgt0)) ++ ['.'] := by simp
      rw [hform, List.getLast?_concat] at hc
      simp only [Option.some.injEq] at hc
      subst hc; decide
  have hL7 : searchMlBoundary (pos ++ '.' :: (s2 ++ m :: (tgt0 ++ ['.']))) =
      some pos.length := by
    apply searchMlBoundary_append
    · exact mlBoundaryAt_boundary h_s2 h_s2ne hm
    · intro i hi
      have h := mlBoundaryAt_inside_pos (s2 ++ m :: (tgt0 ++ ['.'])) h_pos_noml hi
      rwa [List.drop_append_of_le_length (le_of_lt hi)] at h
  have hL8 : (pos ++ '.' :: (s2 ++ m :: (tgt0 ++ ['.']))).take pos.length = pos :=
    List.take_left pos _
  have hL9 : (pos ++ '.' :: (s2 ++ m :: (tgt0 ++ ['.']))).drop (pos.length + 1) =
      s2 ++ m :: (tgt0 ++ ['.']) := by
    rw [← List.drop_drop, List.drop_left]
    rfl
  have hL10 : pyStrip (s2 ++ m :: (tgt0 ++ ['.'])) = m :: (tgt0 ++ ['.']) := by
    rw [pyStrip_append_spaces_left h_s2]
    apply pyStrip_eq_self
    · intro c hc
      simp only [List.head?_cons, Option.some.injEq] at hc
      subst hc; exact hmns
    · intro c hc
      rw [show m :: (tgt0 ++ ['.']) = (m :: tgt0) ++ ['.'] by simp,
        List.getLast?_concat] at hc
      simp only [Option.some.injEq] at hc
      subst hc; decide
  have hL11 : (m :: (tgt0 ++ ['.'])).getLast? = some '.' := by
    rw [show m :: (tgt0 ++ ['.']) = (m :: tgt0) ++ ['.'] by simp]
    exact List.getLast?_concat _
  have hL12 : (m :: (tgt0 ++ ['.'])).dropLast = m :: tgt0 := by
    rw [show m :: (tgt0 ++ ['.']) = (m :: tgt0) ++ ['.'] by simp]
    exact List.dropLast_concat
  refine ⟨BaileyEntry.make head pos (pyStrip (m :: tgt0)) n, ?_, ?_, ?_, ?_⟩
  · simp only [parse_entry_line, hL1, hL2, Bool.false_eq_true, if_false, hL3, hL4, hL5,
      hL6, hL7, hL8, hL9, hL10, hL11, hL12, if_true, h_head_strip, h_pos_strip]
  · simp only [BaileyEntry.make]
    exact h_head_strip
  · simp only [BaileyEntry.make]
    exact h_pos_strip
  · simp only [BaileyEntry.make]
    rw [pyStrip_idem, pyStrip_append_spaces_left h_s2]

/-- Witness for C1 at the test-suite line `Abandon, v. a. ഒരു.`
(hypotheses discharged by evaluation). -/
theorem c1_parse_entry_line_wellformed_witness :
    (',' ∉ "Abandon".toList) ∧
    (∃ e, parse_entry_line
        ("Abandon".toList ++ ',' ::
          (" ".toList ++ "v. a".toList ++ '.' :: (" ".toList ++ "ഒരു".toList ++ ['.']))) 1 =
          some e ∧
      e.headword = "Abandon".toList ∧ e.pos = "v. a".toList ∧
      e.definitions = pyStrip (" ".toList ++ "ഒരു".toList)) :=
  ⟨by decide,
   c1_parse_entry_line_wellformed "Abandon".toList " ".toList "v. a".toList
     " ".toList "ഒരു".toList 1 (by decide) (by decide) (by decide) (by decide)
     (by decide) (by decide) (by decide)
     ⟨'ഒ', "രു".toList, by decide, by decide⟩ (by decide)⟩

/-- Claim C2 (counterexample): the plain-text dialect emits an entry with an
empty headword for the line `, s. ട.`, contradicting the claim that an
empty-headword entry is discarded in every dialect. -/
theorem c2_counterexample_bailey_empty_headword :
    parse_entry_line ", s. ട.".toList 1 =
      some (BaileyEntry.make [] "s".toList "ട".toList 1) ∧
    (BaileyEntry.make [] "s".toList "ട".toList 1).headword = [] := by
  decide

/-- Claim C2 amended: in the XDXF dialect an entry whose first headword
element has empty extracted text is discarded (`parse_entry` returns
`none`), but the plain-text dialect does not discard empty headwords:
`parse_entry_line ", s. ട." ` returns an entry whose headword is empty. -/
theorem c2_amended_empty_headword_discarded :
    (∀ (ar k1 : Elem) (ks : List Elem),
        findallTag "k".toList ar = k1 :: ks → get_text k1 = [] →
        parse_entry ar = none) ∧
    parse_entry_line ", s. ട.".toList 1 =
      some (BaileyEntry.make [] "s".toList "ട".toList 1) := by
  constructor
  · intro ar k1 ks hfind hempty
    have hfind2 : findallTag ['k'] ar = k1 :: ks := hfind
    simp [parse_entry, hfind2, hempty]
  · decide

/-- Witness for the C2 amended claim: a concrete XDXF entry element whose
only `k` child has empty text is discarded. -/
theorem c2_amended_empty_headword_discarded_witness :
    parse_entry (Elem.mk "ar".toList [] [] [Elem.mk "k".toList [] [] [] []] []) =
      none :=
  c2_amended_empty_headword_discarded.1 _ (Elem.mk "k".toList [] [] [] []) [] rfl rfl

/-- Claim C3, code evaluated at the failing input: the head line
`അക്ഷം akšam S. 1. Eye. 2. wheel.` from the spec scenario (and from
`extract_entry`'s own docstring) is rejected, because the headword class
`[അ-ൿ]` (U+0D05..U+0D7F) excludes the anusvara ം (U+0D02) ending the
headword, so the mandatory `\s+` after the Malayalam run never matches. -/
theorem c3_extract_entry_rejects_docstring_example :
    extract_entry "അക്ഷം akšam S. 1. Eye. 2. wheel.".toList "23".toList = none ∧
    looks_like_entry "അക്ഷം akšam S. 1. Eye. 2. wheel.".toList = false :=
  ⟨rfl, rfl⟩

theorem splitSensesAux_no_groups {first : Bool} {fuel : Nat} {cs : List Char}
    (h : (splitSensesAux first fuel cs).2 = []) :
    (splitSensesAux first fuel cs).1 = cs := by
  induction fuel generalizing first cs with
  | zero => rfl
  | succ fuel ih =>
    cases htry : trySenseHere first cs with
    | some r =>
      obtain ⟨ds, rest⟩ := r
      simp only [splitSensesAux, htry] at h
      simp at h
    | none =>
      cases cs with
      | nil => simp [splitSensesAux, htry]
      | cons c cs2 =>
        simp only [splitSensesAux, htry] at h ⊢
        rw [ih h]

/-- Claim C4 (counterexample): the marker-free remainder `(foo)` begins
with an open parenthesis, and the segmenter produces no sense at all
instead of one unnumbered sense. -/
theorem c4_counterexample_paren_lead :
    (splitSenses "(foo)".toList).2 = [] ∧
    parse_definitions "(foo)".toList = [] :=
  ⟨rfl, rfl⟩

/-- Claim C4 amended: pre-marker text that strips to a non-empty string
not starting with `(` becomes the sense numbered 0; a marker-free
remainder becomes exactly one unnumbered sense when its stripped text is
non-empty and does not start with `(`, and otherwise (blank, or starting
with an open parenthesis) yields no senses. -/
theorem c4_amended_sense_segmentation (text : List Char) :
    ((pyStrip (splitSenses text).1).isEmpty = false →
      (pyStrip (splitSenses text).1).head? ≠ some '(' →
      parse_definitions text =
        parse_single_definition 0 (splitSenses text).1 ::
          (splitSenses text).2.map
            (fun g => parse_single_definition (digitsToNat g.1) g.2)) ∧
    ((splitSenses text).2 = [] → (pyStrip text).isEmpty = false →
      (pyStrip text).head? ≠ some '(' →
      parse_definitions text = [parse_single_definition 0 text]) ∧
    ((splitSenses text).2 = [] →
      ((pyStrip text).isEmpty = true ∨ (pyStrip text).head? = some '(') →
      parse_definitions text = []) := by
  refine ⟨?_, ?_, ?_⟩
  · intro hne hpar
    simp only [parse_definitions, hne, Bool.not_false, Bool.true_and]
    rw [if_pos (by simp [hpar])]
    simp
  · intro hg hne hpar
    have h1 : (splitSenses text).1 = text := splitSensesAux_no_groups hg
    simp only [parse_definitions, h1, hne, Bool.not_false, Bool.true_and, hg]
    rw [if_pos (by simp [hpar])]
    simp
  · intro hg hcond
    have h1 : (splitSenses text).1 = text := splitSensesAux_no_groups hg
    simp only [parse_definitions, h1, hg]
    rcases hcond with hc | hc
    · rw [if_neg (by simp [hc])]
      simp
    · rw [if_neg (by simp [hc])]
      simp

/-- Witness for the C4 amended claim at three concrete remainders. -/
theorem c4_amended_sense_segmentation_witness :
    parse_definitions "ab 1. cd".toList =
      parse_single_definition 0 "ab".toList ::
        [parse_single_definition 1 "cd".toList] ∧
    parse_definitions "xy".toList = [parse_single_definition 0 "xy".toList] ∧
    parse_definitions "(no)".toList = [] :=
  ⟨(c4_amended_sense_segmentation "ab 1. cd".toList).1 (by decide) (by decide),
   (c4_amended_sense_segmentation "xy".toList).2.1 (by decide) (by decide) (by decide),
   (c4_amended_sense_segmentation "(no)".toList).2.2 (by decide) (by decide)⟩

/-- Claim C6 (counterexample): the numbered sense text `ab` produces a
Sense whose target text, source text, citations and cross-references are
all empty, yet the sense stays in the entry's sense sequence. -/
theorem c6_counterexample_empty_sense_kept :
    parse_definitions "1. ab".toList =
      [{ sense := 1, malayalam := [], english := [], citations := [],
         cross_refs := [], raw := "ab".toList }] := by
  decide

/-- Claim C6 amended: the classifier never drops a numbered sense; every
numbered segment found by the splitter appears in the sense sequence,
whatever its content (only the unnumbered lead segment is conditional,
and on its raw text, not on the four content fields). -/
theorem c6_amended_senses_never_dropped (text : List Char)
    (g : List Char × List Char) (hg : g ∈ (splitSenses text).2) :
    parse_single_definition (digitsToNat g.1) g.2 ∈ parse_definitions text := by
  simp only [parse_definitions]
  refine List.mem_append.mpr (Or.inr ?_)
  exact List.mem_map.mpr ⟨g, hg, rfl⟩

/-- Witness for the C6 amended claim: the all-empty sense of `1. ab` is in
the sequence. -/
theorem c6_amended_senses_never_dropped_witness :
    parse_single_definition 1 "ab".toList ∈ parse_definitions "1. ab".toList :=
  c6_amended_senses_never_dropped "1. ab".toList ("1".toList, "ab".toList) (by decide)

theorem parse_entry_line_pos_normalized {line : List Char} {n : Nat} {e : BaileyEntry}
    (h : parse_entry_line line n = some e) :
    e.pos_normalized = (List.lookup e.pos POS_MAPPING).getD e.pos := by
  simp only [parse_entry_line] at h
  split at h
  · exact absurd h (by simp)
  · split at h
    · exact absurd h (by simp)
    · split at h
      · exact absurd h (by simp)
      · simp only [Option.some.injEq] at h
        subst h
        rfl

theorem extract_entry_etymology_lookup {text page : List Char} {e : GundertEntry}
    (h : extract_entry text page = some e) :
    e.etymology = (List.lookup e.etymology_marker etymology_map).getD [] := by
  simp only [extract_entry] at h
  split at h
  · exact absurd h (by simp)
  · split at h
    · exact absurd h (by simp)
    · simp only [Option.some.injEq] at h
      subst h
      rfl

/-- Claim C7 (counterexample): the extracted etymology marker `Tdbh.` has
no entry in the etymology map, and its canonical value is the empty
string, not the raw marker. -/
theorem c7_counterexample_unmapped_etymology_not_retained :
    (extract_entry "പന pana Tdbh. xyz".toList "23".toList).map
        (fun e => e.etymology_marker) = some "Tdbh.".toList ∧
    (extract_entry "പന pana Tdbh. xyz".toList "23".toList).map
        (fun e => e.etymology) = some [] ∧
    List.lookup "Tdbh.".toList etymology_map = none ∧
    ("Tdbh.".toList : List Char) ≠ [] := by
  decide

/-- Claim C7 amended: an unmapped grammar marker of the plain-text
dialect is retained verbatim (`pos_normalized = pos`), while an unmapped
etymology marker of the markup dialect canonicalizes to the empty
string, not to the raw marker. -/
theorem c7_amended_marker_fallbacks :
    (∀ (line : List Char) (n : Nat) (e : BaileyEntry),
        parse_entry_line line n = some e →
        List.lookup e.pos POS_MAPPING = none → e.pos_normalized = e.pos) ∧
    (∀ (text page : List Char) (e : GundertEntry),
        extract_entry text page = some e →
        List.lookup e.etymology_marker etymology_map = none → e.etymology = []) := by
  constructor
  · intro line n e h hlook
    rw [parse_entry_line_pos_normalized h, hlook]
    rfl
  · intro text page e h hlook
    rw [extract_entry_etymology_lookup h, hlook]
    rfl

/-- Witness for the C7 amended claim: the unmapped POS tag `zz` is kept
verbatim by the Bailey parser, and the unmapped gundert marker `Tdbh.`
canonicalizes to the empty string. -/
theorem c7_amended_marker_fallbacks_witness :
    (BaileyEntry.make "Fie".toList "zz".toList "ട".toList 1).pos_normalized =
      (BaileyEntry.make "Fie".toList "zz".toList "ട".toList 1).pos ∧
    ({ malayalam := "പന".toList, romanization := "pana".toList
     , etymology_marker := "Tdbh.".toList, etymology := []
     , page := "23".toList, raw_definition := "xyz".toList
     , definitions := [parse_single_definition 0 "xyz".toList] } :
        GundertEntry).etymology = [] :=
  ⟨c7_amended_marker_fallbacks.1 "Fie, zz. ട.".toList 1
      (BaileyEntry.make "Fie".toList "zz".toList "ട".toList 1) (by decide) (by decide),
   c7_amended_marker_fallbacks.2 "പന pana Tdbh. xyz".toList "23".toList
      { malayalam := "പന".toList, romanization := "pana".toList
      , etymology_marker := "Tdbh.".toList, etymology := []
      , page := "23".toList, raw_definition := "xyz".toList
      , definitions := [parse_single_definition 0 "xyz".toList] }
      (by decide) (by decide)⟩

theorem citation_stripDots_nodup : (citation_markers.map stripDots).Nodup := by
  decide

/-- Claim C9: citation extraction is duplicate-free and contains exactly
the period-stripped forms of the fixed markers occurring as substrings of
the sense text; in particular a marker occurring twice contributes one
citation. -/
theorem c9_extract_citations_exact (text : List Char) :
    (extract_citations text).Nodup ∧
    (∀ m ∈ citation_markers,
      (stripDots m ∈ extract_citations text ↔ isSubstringOf m text = true)) ∧
    (∀ x ∈ extract_citations text,
      ∃ m ∈ citation_markers, stripDots m = x ∧ isSubstringOf m text = true) := by
  refine ⟨List.nodup_dedup _, ?_, ?_⟩
  · intro m hm
    unfold extract_citations
    constructor
    · intro hmem
      rw [List.mem_dedup] at hmem
      obtain ⟨m2, hm2, heq⟩ := List.mem_map.mp hmem
      have hm2f := List.mem_filter.mp hm2
      have heq2 : m2 = m :=
        List.inj_on_of_nodup_map citation_stripDots_nodup hm2f.1 hm heq
      rw [← heq2]
      exact hm2f.2
    · intro hsub
      rw [List.mem_dedup]
      exact List.mem_map.mpr ⟨m, List.mem_filter.mpr ⟨hm, hsub⟩, rfl⟩
  · intro x hx
    unfold extract_citations at hx
    rw [List.mem_dedup] at hx
    obtain ⟨m2, hm2, heq⟩ := List.mem_map.mp hx
    have hm2f := List.mem_filter.mp hm2
    exact ⟨m2, hm2f.1, heq, hm2f.2⟩

/-- Witness for C9: the sense text `no KR. yes KR. twice` contains `KR.`
twice and yields the citation `KR` exactly once. -/
theorem c9_extract_citations_exact_witness :
    (extract_citations "no KR. yes KR. twice".toList).Nodup ∧
    ("KR.".toList ∈ citation_markers) ∧
    (stripDots "KR.".toList ∈ extract_citations "no KR. yes KR. twice".toList ↔
      isSubstringOf "KR.".toList "no KR. yes KR. twice".toList = true) :=
  ⟨(c9_extract_citations_exact "no KR. yes KR. twice".toList).1, by decide,
   (c9_extract_citations_exact "no KR. yes KR. twice".toList).2.1 "KR.".toList
     (by decide)⟩

theorem find?_filter_of_imp {p q : Elem → Bool} (l : List Elem)
    (himp : ∀ e, p e = true → q e = true) :
    List.find? p (l.filter q) = List.find? p l := by
  induction l with
  | nil => rfl
  | cons e l ih =>
    by_cases hq : q e = true
    · rw [List.filter_cons_of_pos hq]
      by_cases hp : p e = true
      · rw [List.find?_cons_of_pos _ hp, List.find?_cons_of_pos _ hp]
      · rw [List.find?_cons_of_neg _ hp, List.find?_cons_of_neg _ hp, ih]
    · have hp : ¬p e = true := fun hpe => hq (himp e hpe)
      rw [List.filter_cons_of_neg hq, List.find?_cons_of_neg _ hp, ih]

/-- Claim C10: in the XDXF dialect only the first `k` child of an entry
element determines the headword; the later `k` children are ignored, so
the parse result is unchanged when they are removed, and the emitted
headword is the first `k` element's text.  No alternate-form field exists
in the produced record. -/
theorem c10_first_headword_only
    (tag text : List Char) (attrs : List (List Char × List Char))
    (tail : List Char) (pre mid : List Elem) (k1 : Elem)
    (hpre : ∀ e ∈ pre, (e.tag == "k".toList) = false)
    (hk : (k1.tag == "k".toList) = true) :
    parse_entry (Elem.mk tag text attrs (pre ++ k1 :: mid) tail) =
      parse_entry (Elem.mk tag text attrs
        (pre ++ k1 :: mid.filter (fun e => !(e.tag == "k".toList))) tail) ∧
    ∀ ent, parse_entry (Elem.mk tag text attrs (pre ++ k1 :: mid) tail) = some ent →
      ent.headword = get_text k1 := by
  have hprefil : List.filter (fun c => c.tag == "k".toList) pre = [] :=
    List.filter_eq_nil_iff.mpr (fun e he => by simpa using hpre e he)
  have hfa : findallTag "k".toList (Elem.mk tag text attrs (pre ++ k1 :: mid) tail) =
      k1 :: mid.filter (fun c => c.tag == "k".toList) := by
    simp only [findallTag, Elem.children]
    rw [List.filter_append, hprefil,
      List.filter_cons_of_pos (p := fun (c : Elem) => c.tag == "k".toList) hk]
    rfl
  have hfa2 : findallTag "k".toList (Elem.mk tag text attrs
      (pre ++ k1 :: mid.filter (fun e => !(e.tag == "k".toList))) tail) = [k1] := by
    simp only [findallTag, Elem.children]
    rw [List.filter_append, hprefil,
      List.filter_cons_of_pos (p := fun (c : Elem) => c.tag == "k".toList) hk]
    have hnil : List.filter (fun c => c.tag == "k".toList)
        (mid.filter (fun e => !(e.tag == "k".toList))) = [] := by
      apply List.filter_eq_nil_iff.mpr
      intro a ha
      have hq := (List.mem_filter.mp ha).2
      simp at hq ⊢
      exact hq
    rw [hnil]
    rfl
  have hfd : findTag "def".toList (Elem.mk tag text attrs
      (pre ++ k1 :: mid.filter (fun e => !(e.tag == "k".toList))) tail) =
      findTag "def".toList (Elem.mk tag text attrs (pre ++ k1 :: mid) tail) := by
    simp only [findTag, Elem.children]
    rw [List.find?_append, List.find?_append]
    have hcons : List.find? (fun c => c.tag == "def".toList)
        (k1 :: mid.filter (fun e => !(e.tag == "k".toList))) =
        List.find? (fun c => c.tag == "def".toList) (k1 :: mid) := by
      by_cases hk1 : (k1.tag == "def".toList) = true
      · rw [List.find?_cons_of_pos (p := fun (c : Elem) => c.tag == "def".toList) _ hk1,
          List.find?_cons_of_pos (p := fun (c : Elem) => c.tag == "def".toList) _ hk1]
      · rw [List.find?_cons_of_neg (p := fun (c : Elem) => c.tag == "def".toList) _ hk1,
          List.find?_cons_of_neg (p := fun (c : Elem) => c.tag == "def".toList) _ hk1]
        apply find?_filter_of_imp
        intro e he
        have hde : e.tag = "def".toList := beq_iff_eq.mp he
        rw [hde]
        decide
    rw [hcons]
  constructor
  · simp only [parse_entry, hfa, hfa2, hfd]
  · intro ent hent
    simp only [parse_entry, hfa] at hent
    split at hent
    · exact absurd hent (by simp)
    · split at hent
      · exact absurd hent (by simp)
      · simp only [Option.some.injEq] at hent
        subst hent
        rfl

/-- Witness for C10: an entry element with two `k` children parses to the
same result as with the second removed, and the headword is the first
`k` text. -/
theorem c10_first_headword_only_witness :
    parse_entry (Elem.mk "ar".toList [] []
        [ Elem.mk "k".toList "അ".toList [] [] []
        , Elem.mk "k".toList "ആ".toList [] [] []
        , Elem.mk "def".toList "x".toList [] [] [] ] []) =
      parse_entry (Elem.mk "ar".toList [] []
        [ Elem.mk "k".toList "അ".toList [] [] []
        , Elem.mk "def".toList "x".toList [] [] [] ] []) ∧
    ∀ ent, parse_entry (Elem.mk "ar".toList [] []
        [ Elem.mk "k".toList "അ".toList [] [] []
        , Elem.mk "k".toList "ആ".toList [] [] []
        , Elem.mk "def".toList "x".toList [] [] [] ] []) = some ent →
      ent.headword = get_text (Elem.mk "k".toList "അ".toList [] [] []) :=
  c10_first_headword_only "ar".toList [] [] [] []
    [ Elem.mk "k".toList "ആ".toList [] [] []
    , Elem.mk "def".toList "x".toList [] [] [] ]
    (Elem.mk "k".toList "അ".toList [] [] [])
    (fun e he => absurd he (List.not_mem_nil e)) rfl

/-! ## Lemmas for the text normalizer -/

theorem tryLb1_nil : tryLb1 [] = none := rfl

theorem tryLb2_nil : tryLb2 [] = none := rfl

theorem tryLb1_not_lt {c : Char} (hc : c ≠ '<') (cs : List Char) :
    tryLb1 (c :: cs) = none := by
  rcases cs with _ | ⟨c2, cs2⟩
  · rfl
  · rcases cs2 with _ | ⟨c3, cs3⟩
    · rfl
    · simp only [tryLb1]
      rw [if_neg (by simp [hc])]

theorem tryLb2_not_lt {c : Char} (hc : c ≠ '<') (cs : List Char) :
    tryLb2 (c :: cs) = none := by
  rcases cs with _ | ⟨c2, cs2⟩
  · rfl
  · rcases cs2 with _ | ⟨c3, cs3⟩
    · rfl
    · simp only [tryLb2]
      rw [if_neg (by simp [hc])]

theorem head_drop_mem {cs : List Char} {i : Nat} {c : Char} {u : List Char}
    (h : cs.drop i = c :: u) : c ∈ cs := by
  have hc : c ∈ cs.drop i := by rw [h]; simp
  exact (List.drop_suffix i cs).subset hc

theorem tryLb1_none_of_no_lt {cs : List Char} (h : '<' ∉ cs) :
    ∀ i, tryLb1 (cs.drop i) = none := by
  intro i
  rcases hd : cs.drop i with _ | ⟨c, u⟩
  · exact tryLb1_nil
  · exact tryLb1_not_lt (fun hc => h (hc ▸ head_drop_mem hd)) u

theorem tryLb2_none_of_no_lt {cs : List Char} (h : '<' ∉ cs) :
    ∀ i, tryLb2 (cs.drop i) = none := by
  intro i
  rcases hd : cs.drop i with _ | ⟨c, u⟩
  · exact tryLb2_nil
  · exact tryLb2_not_lt (fun hc => h (hc ▸ head_drop_mem hd)) u

theorem subScan_eq_self {tryf : List Char → Option (List Char)} :
    ∀ (fuel : Nat) (cs : List Char),
    (∀ i, tryf (cs.drop i) = none) → subScan tryf fuel cs = cs := by
  intro fuel
  induction fuel with
  | zero => intro cs _; rfl
  | succ fuel ih =>
    intro cs hno
    have h0 := hno 0
    simp only [List.drop_zero] at h0
    cases cs with
    | nil => simp [subScan, h0]
    | cons c cs2 =>
      simp only [subScan, h0]
      rw [ih cs2 (fun i => hno (i + 1))]

theorem subScan_append {tryf : List Char → Option (List Char)}
    (X : List Char) :
    ∀ (w1 : List Char) (fuel : Nat), w1.length ≤ fuel →
    (∀ i, i < w1.length → tryf (w1.drop i ++ X) = none) →
    subScan tryf fuel (w1 ++ X) = w1 ++ subScan tryf (fuel - w1.length) X := by
  intro w1
  induction w1 with
  | nil => intro fuel _ _; simp
  | cons c w1 ih =>
    intro fuel hle hno
    cases fuel with
    | zero => simp at hle
    | succ fuel =>
      have h0 := hno 0 (by simp)
      simp only [List.drop_zero, List.cons_append] at h0
      simp only [List.cons_append, subScan, h0]
      rw [ih fuel (by simp at hle; omega) (fun i hi => by
        have h := hno (i + 1) (by simp only [List.length_cons]; omega)
        simpa using h)]
      have harith : fuel + 1 - (c :: w1).length = fuel - w1.length := by
        simp only [List.length_cons]; omega
      rw [harith]

theorem bsGetText_id :
    ∀ (fuel : Nat) (cs : List Char), '<' ∉ cs → '&' ∉ cs →
    bsGetText fuel false cs = cs := by
  intro fuel
  induction fuel with
  | zero => intro cs _ _; rfl
  | succ fuel ih =>
    intro cs hlt hamp
    cases cs with
    | nil => rfl
    | cons c cs2 =>
      have hc1 : c ≠ '<' := fun hc => hlt (by simp [hc])
      have hc2 : c ≠ '&' := fun hc => hamp (by simp [hc])
      simp only [bsGetText, if_neg hc1, if_neg hc2]
      rw [ih cs2 (fun hm => hlt (by simp [hm])) (fun hm => hamp (by simp [hm]))]

theorem collapseWsAux_mem {fuel : Nat} {cs : List Char} {c : Char}
    (h : c ∈ collapseWsAux fuel cs) : c = ' ' ∨ c ∈ cs := by
  induction fuel generalizing cs with
  | zero => exact Or.inr h
  | succ fuel ih =>
    cases cs with
    | nil => simp [collapseWsAux] at h
    | cons d cs2 =>
      simp only [collapseWsAux] at h
      by_cases hd : pyIsSpace d = true
      · rw [if_pos hd] at h
        rcases List.mem_cons.mp h with h1 | h1
        · exact Or.inl h1
        · rcases ih h1 with h2 | h2
          · exact Or.inl h2
          · exact Or.inr (by simp [mem_of_mem_dropWhile h2])
      · rw [if_neg hd] at h
        rcases List.mem_cons.mp h with h1 | h1
        · exact Or.inr (by simp [h1])
        · rcases ih h1 with h2 | h2
          · exact Or.inl h2
          · exact Or.inr (by simp [h2])

theorem collapseWsAux_no_ws_id :
    ∀ (fuel : Nat) (cs : List Char), (∀ c ∈ cs, pyIsSpace c = false) →
    collapseWsAux fuel cs = cs := by
  intro fuel
  induction fuel with
  | zero => intro cs _; rfl
  | succ fuel ih =>
    intro cs h
    cases cs with
    | nil => rfl
    | cons c cs2 =>
      simp only [collapseWsAux]
      rw [if_neg (by simp [h c (by simp)])]
      rw [ih cs2 (fun d hd => h d (by simp [hd]))]

theorem pyStrip_id_of_no_ws {cs : List Char} (h : ∀ c ∈ cs, pyIsSpace c = false) :
    pyStrip cs = cs := by
  apply pyStrip_eq_self
  · intro c hc
    exact h c (by rcases cs with _ | ⟨d, t⟩ <;> simp_all)
  · intro c hc
    rcases List.eq_nil_or_concat cs with hnil | ⟨l2, b, hcat⟩
    · subst hnil; simp at hc
    · rw [List.concat_eq_append] at hcat
      subst hcat
      rw [List.getLast?_concat] at hc
      simp only [Option.some.injEq] at hc
      exact hc ▸ h b (by simp)

theorem collapseWsAux_nil (fuel : Nat) : collapseWsAux fuel [] = [] := by
  cases fuel <;> rfl

theorem collapseWsAux_head_nonspace (fuel : Nat) {d : Char} (rest : List Char)
    (hd : pyIsSpace d = false) :
    (collapseWsAux fuel (d :: rest)).head? = some d := by
  cases fuel with
  | zero => rfl
  | succ fuel =>
    simp only [collapseWsAux]
    rw [if_neg (by simp [hd])]
    rfl

theorem collapseWsAux_ws_space :
    ∀ (fuel : Nat) (cs : List Char), cs.length ≤ fuel →
    ∀ c ∈ collapseWsAux fuel cs, pyIsSpace c = true → c = ' ' := by
  intro fuel
  induction fuel with
  | zero =>
    intro cs hle c hc _
    rw [List.length_eq_zero.mp (Nat.le_zero.mp hle)] at hc
    simp [collapseWsAux_nil] at hc
  | succ fuel ih =>
    intro cs hle c hc hw
    cases cs with
    | nil => simp [collapseWsAux] at hc
    | cons d cs2 =>
      simp only [collapseWsAux] at hc
      by_cases hd : pyIsSpace d = true
      · rw [if_pos hd] at hc
        rcases List.mem_cons.mp hc with h1 | h1
        · exact h1
        · exact ih (cs2.dropWhile pyIsSpace)
            (le_trans (length_dropWhile_le _ _) (by simp at hle; omega)) c h1 hw
      · rw [if_neg hd] at hc
        rcases List.mem_cons.mp hc with h1 | h1
        · exact absurd (h1 ▸ hw) (by simpa using hd)
        · exact ih cs2 (by simp at hle; omega) c h1 hw

theorem collapseWsAux_no_dd :
    ∀ (fuel : Nat) (cs : List Char), cs.length ≤ fuel →
    ¬([' ', ' '] <:+: collapseWsAux fuel cs) := by
  intro fuel
  induction fuel with
  | zero =>
    intro cs hle hinf
    rw [List.length_eq_zero.mp (Nat.le_zero.mp hle)] at hinf
    have := hinf.length_le
    simp [collapseWsAux_nil] at this
  | succ fuel ih =>
    intro cs hle hinf
    cases cs with
    | nil =>
      have := hinf.length_le
      simp [collapseWsAux] at this
    | cons d cs2 =>
      simp only [collapseWsAux] at hinf
      by_cases hd : pyIsSpace d = true
      · rw [if_pos hd] at hinf
        rcases List.infix_cons_iff.mp hinf with hpre | hinf2
        · have h2 : ([' '] : List Char) <+: collapseWsAux fuel (cs2.dropWhile pyIsSpace) :=
            (List.cons_prefix_cons.mp hpre).2
          rcases h2 with ⟨t, ht⟩
          rcases hrest : cs2.dropWhile pyIsSpace with _ | ⟨e, rest2⟩
          · rw [hrest, collapseWsAux_nil] at ht
            simp at ht
          · have he : pyIsSpace e = false :=
              lstrip_head_not_space cs2 e (by rw [show lstrip cs2 = cs2.dropWhile pyIsSpace from rfl, hrest]; rfl)
            have hhead := collapseWsAux_head_nonspace fuel rest2 he
            rw [hrest] at ht
            rw [← ht] at hhead
            simp only [List.cons_append, List.head?_cons, Option.some.injEq] at hhead
            rw [← hhead] at he
            exact absurd he (by decide)
        · exact ih (cs2.dropWhile pyIsSpace)
            (le_trans (length_dropWhile_le _ _) (by simp at hle; omega)) hinf2
      · rw [if_neg hd] at hinf
        rcases List.infix_cons_iff.mp hinf with hpre | hinf2
        · have h1 : (' ' : Char) = d := (List.cons_prefix_cons.mp hpre).1
          rw [← h1] at hd
          exact hd (by decide)
        · exact ih cs2 (by simp at hle; omega) hinf2

theorem collapseWsAux_eq_self :
    ∀ (fuel : Nat) (cs : List Char),
    (∀ c ∈ cs, pyIsSpace c = true → c = ' ') → ¬([' ', ' '] <:+: cs) →
    collapseWsAux fuel cs = cs := by
  intro fuel
  induction fuel with
  | zero => intro cs _ _; rfl
  | succ fuel ih =>
    intro cs hws hdd
    cases cs with
    | nil => rfl
    | cons d cs2 =>
      simp only [collapseWsAux]
      by_cases hd : pyIsSpace d = true
      · have hd2 : d = ' ' := hws d (by simp) hd
        have hdrop : cs2.dropWhile pyIsSpace = cs2 := by
          cases cs2 with
          | nil => rfl
          | cons e cs3 =>
            have he : pyIsSpace e = false := by
              by_contra hee
              simp only [Bool.not_eq_false] at hee
              have he2 : e = ' ' := hws e (by simp) hee
              apply hdd
              apply List.IsPrefix.isInfix
              rw [hd2, he2]
              exact ⟨cs3, rfl⟩
            rw [List.dropWhile_cons, if_neg (by simp [he])]
        rw [if_pos hd, hdrop, hd2,
          ih cs2 (fun c hc hw => hws c (by simp [hc]) hw)
            (fun hinf => hdd (List.infix_cons hinf))]
      · rw [if_neg hd,
          ih cs2 (fun c hc hw => hws c (by simp [hc]) hw)
            (fun hinf => hdd (List.infix_cons hinf))]

theorem clean_text_fixed {u : List Char}
    (hlt : '<' ∉ u)
    (hamp : '&' ∉ u)
    (hws : ∀ c ∈ u, pyIsSpace c = true → c = ' ')
    (hdd : ¬([' ', ' '] <:+: u))
    (hstrip : pyStrip u = u) :
    clean_text u = u := by
  simp only [clean_text]
  rw [subScan_eq_self _ _ (tryLb1_none_of_no_lt hlt)]
  rw [subScan_eq_self _ _ (tryLb2_none_of_no_lt hlt)]
  rw [bsGetText_id u.length u hlt hamp]
  rw [show collapseWs u = u from collapseWsAux_eq_self _ _ hws hdd]
  exact hstrip

/-- Claim C8 (counterexample): `clean_text` is not idempotent.  On
`a&lt;b&gt;c` the first pass decodes the entities to the literal markup
characters `a<b>c`; a second pass treats the decoded `<b>` as a tag and
strips it, leaving `ac`. -/
theorem c8_counterexample_entity_not_idempotent :
    clean_text "a&lt;b&gt;c".toList = "a<b>c".toList ∧
    clean_text (clean_text "a&lt;b&gt;c".toList) = "ac".toList ∧
    ("ac".toList : List Char) ≠ "a<b>c".toList := by
  decide

/-- Claim C8 amended: `clean_text` is idempotent on every input whose
first-pass output contains neither `<` nor `&`; a fixed point can only
be escaped when a decoded character reference reintroduces one of those
two markup metacharacters. -/
theorem c8_amended_idempotent_without_metachars (s : List Char)
    (hlt : '<' ∉ clean_text s) (hamp : '&' ∉ clean_text s) :
    clean_text (clean_text s) = clean_text s := by
  have hshape : clean_text s =
      pyStrip (collapseWs (bsGetText
        (subScan tryLb2 (subScan tryLb1 s.length s).length
          (subScan tryLb1 s.length s)).length false
        (subScan tryLb2 (subScan tryLb1 s.length s).length
          (subScan tryLb1 s.length s)))) := rfl
  apply clean_text_fixed hlt hamp
  · rw [hshape]
    intro c hc hw
    have hc2 := pyStrip_subset hc
    exact collapseWsAux_ws_space _ _ le_rfl c hc2 hw
  · rw [hshape]
    intro hinf
    have hinf2 := hinf.trans (pyStrip_infix_self _)
    exact collapseWsAux_no_dd _ _ le_rfl hinf2
  · rw [hshape]
    exact pyStrip_idem _

/-- Witness for the C8 amended claim: a tagged, entity-free input whose
normal form `ab cd` is a fixed point of `clean_text`. -/
theorem c8_amended_idempotent_without_metachars_witness :
    clean_text (clean_text "<p>ab  cd</p>".toList) =
      clean_text "<p>ab  cd</p>".toList :=
  c8_amended_idempotent_without_metachars "<p>ab  cd</p>".toList
    (by decide) (by decide)

/-- Claim C5 (counterexample): the XDXF normalizer inserts a space at a
`<br>` line break, separating the two halves of the word instead of
rejoining them; the TEI normalizer rejoins them with no space. -/
theorem c5_counterexample_br_inserts_space :
    get_text (Elem.mk "k".toList "അക".toList []
        [Elem.mk "br".toList [] [] [] "ഷങ്ങൾ".toList] []) = "അക ഷങ്ങൾ".toList ∧
    ("അക ഷങ്ങൾ".toList : List Char) ≠ "അകഷങ്ങൾ".toList ∧
    clean_text "അക<lb></lb>ഷങ്ങൾ".toList = "അകഷങ്ങൾ".toList := by
  decide

/-- Claim C5 amended: for every word split in two non-empty halves free
of whitespace and of the markup metacharacters `<` and `&`, the TEI
`clean_text` removes the `<lb></lb>` marker and rejoins the word with no
space, while the XDXF `get_text` renders a `<br>` child as a single
space, separating the halves. -/
theorem c5_amended_linebreak_handling (w1 w2 : List Char)
    (h1 : w1 ≠ []) (h2 : w2 ≠ [])
    (hw1 : ∀ c ∈ w1, pyIsSpace c = false ∧ c ≠ '<' ∧ c ≠ '&')
    (hw2 : ∀ c ∈ w2, pyIsSpace c = false ∧ c ≠ '<' ∧ c ≠ '&') :
    clean_text (w1 ++ "<lb></lb>".toList ++ w2) = w1 ++ w2 ∧
    get_text (Elem.mk "k".toList w1 []
      [Elem.mk "br".toList [] [] [] w2] []) = w1 ++ ' ' :: w2 ∧
    w1 ++ ' ' :: w2 ≠ w1 ++ w2 := by
  have hnl12 : '<' ∉ w1 ++ w2 := by
    intro hm
    rcases List.mem_append.mp hm with h | h
    · exact (hw1 _ h).2.1 rfl
    · exact (hw2 _ h).2.1 rfl
  have hnoamp : '&' ∉ w1 ++ w2 := by
    intro hm
    rcases List.mem_append.mp hm with h | h
    · exact (hw1 _ h).2.2 rfl
    · exact (hw2 _ h).2.2 rfl
  have hnows : ∀ c ∈ w1 ++ w2, pyIsSpace c = false := by
    intro c hm
    rcases List.mem_append.mp hm with h | h
    · exact (hw1 _ h).1
    · exact (hw2 _ h).1
  refine ⟨?_, ?_, ?_⟩
  · simp only [clean_text]
    rw [List.append_assoc]
    have hnomatch : ∀ i, i < w1.length →
        tryLb1 (w1.drop i ++ ("<lb></lb>".toList ++ w2)) = none := by
      intro i hi
      rw [List.drop_eq_getElem_cons hi, List.cons_append]
      exact tryLb1_not_lt (hw1 _ (List.getElem_mem hi)).2.1 _
    rw [subScan_append ("<lb></lb>".toList ++ w2) w1 _
      (by simp [List.length_append]) hnomatch]
    have harith : (w1 ++ ("<lb></lb>".toList ++ w2)).length - w1.length =
        w2.length + 8 + 1 := by
      simp [List.length_append]
    rw [harith]
    have hstep : subScan tryLb1 (w2.length + 8 + 1) ("<lb></lb>".toList ++ w2) =
        subScan tryLb1 (w2.length + 8) w2 := by
      have hlb : tryLb1 ("<lb></lb>".toList ++ w2) = some w2 := rfl
      simp only [subScan]
      rw [hlb]
    rw [hstep]
    rw [subScan_eq_self _ _ (tryLb1_none_of_no_lt (fun hm => (hw2 _ hm).2.1 rfl))]
    rw [subScan_eq_self _ _ (tryLb2_none_of_no_lt hnl12)]
    rw [bsGetText_id _ _ hnl12 hnoamp]
    rw [show collapseWs (w1 ++ w2) = w1 ++ w2 from
      collapseWsAux_no_ws_id _ _ hnows]
    exact pyStrip_id_of_no_ws hnows
  · have hshape : get_text (Elem.mk "k".toList w1 []
        [Elem.mk "br".toList [] [] [] w2] []) =
        pyStrip (w1 ++ ' ' :: (w2 ++ [])) := rfl
    rw [hshape, List.append_nil]
    apply pyStrip_eq_self
    · intro c hc
      rcases w1 with _ | ⟨d, w1t⟩
      · exact absurd rfl h1
      · simp only [List.cons_append, List.head?_cons, Option.some.injEq] at hc
        exact hc ▸ (hw1 d (by simp)).1
    · intro c hc
      rcases List.eq_nil_or_concat w2 with hnil | ⟨t, b, hcat⟩
      · exact absurd hnil h2
      · rw [List.concat_eq_append] at hcat
        subst hcat
        rw [show w1 ++ ' ' :: (t ++ [b]) = (w1 ++ ' ' :: t) ++ [b] by simp,
          List.getLast?_concat] at hc
        simp only [Option.some.injEq] at hc
        exact hc ▸ (hw2 b (by simp)).1
  · intro heq
    have hlen := congrArg List.length heq
    simp only [List.length_append, List.length_cons] at hlen
    omega

/-- Witness for the C5 amended claim at the word from the source comment,
`അക` + line break + `ഷങ്ങൾ`. -/
theorem c5_amended_linebreak_handling_witness :
    clean_text ("അക".toList ++ "<lb></lb>".toList ++ "ഷങ്ങൾ".toList) =
      "അക".toList ++ "ഷങ്ങൾ".toList ∧
    get_text (Elem.mk "k".toList "അക".toList []
      [Elem.mk "br".toList [] [] [] "ഷങ്ങൾ".toList] []) =
      "അക".toList ++ ' ' :: "ഷങ്ങൾ".toList ∧
    "അക".toList ++ ' ' :: "ഷങ്ങൾ".toList ≠ "അക".toList ++ "ഷങ്ങൾ".toList :=
  c5_amended_linebreak_handling "അക".toList "ഷങ്ങൾ".toList
    (by decide) (by decide) (by decide) (by decide)

end DictConv
